import Mathlib

/-!
Verification of the recursive multi-criteria reordering core of
`tar-reorder.py` (a script that rewrites a tar archive so that similar
members are grouped together).

The embedding follows the source closely:

* `Entry` models a `tarfile.TarInfo` member: its full path (`name`), its
  structural kind (`isreg` / `isdir` / everything else), and an opaque
  `addr` field modelling CPython object identity.  `addr` matters because
  the script runs under Python 2 and calls `before.sort()` on lists of
  `TarInfo` objects, which define no comparison methods; CPython 2's
  `default_3way_compare` then orders same-type objects by their memory
  address.  The content of a regular file is not modelled directly: the
  MIME sniff `wizard.buffer(fc.read(4096))` is abstracted as an oracle
  `sniff : Entry → Option String` (`none` = libmagic returned no result).

* `reorder_by` mirrors the `class reorder_by` constants (lines 54-58).

* `splitextChars` mirrors `posixpath.splitext` (split off the extension
  after the last dot of the final path segment, never splitting at the
  leading dots of the segment), `extChainChars` the `while 1` stripping
  loop of lines 108-121, and `baseNameChars` `os.path.split(p)[1]`.

* `classify` mirrors the body of the `for f in inlist` loop
  (lines 91-132): at each criterion an entry is routed to the `before`
  list, the `after` list, to a keyed group, or nowhere at all (for a
  criterion outside 1..4 none of the `if` branches fires and the entry is
  silently dropped).  `partitionStep` accumulates the three collections
  exactly as the loop does, preserving relative input order.

* `classifyE`/`partitionStepE`/`reorderE` are the same functions with the
  content read of lines 102-103 made fallible: `fc =
  intar.extractfile(f); key = wizard.buffer(fc.read(4096))` has no
  exception handler anywhere inside `reorder`, so an exception from an
  unreadable entry propagates out of the whole reorder.
  `reorderE_ok`/`reorderE_nomagic` prove that when every read succeeds
  (or sniffing is disabled, so the read never happens) the fallible
  functions compute `Except.ok` of the pure ones.

* `reorderF` mirrors `reorder` (lines 67-143): emit short lists verbatim,
  otherwise emit `sorted(before)`, then every group in ascending key
  order recursed with `crit + 1`, then `sorted(after)`.  The Python
  recursion is unbounded syntactically; here a fuel counter makes the
  recursion structural, and `reorderF_fuel_succ` proves that any fuel
  from 5 up computes the same function, so `reorder := reorderF 5` is a
  faithful rendering (groups only form at criteria 1-3, so the dynamic
  recursion depth is at most 4).

* `processInPlace` models the per-archive temp-file handling of
  lines 168-214 (create a temp file next to the original, write the
  reordered archive into it, delete it if an exception escapes the inner
  `try`, move it over the original otherwise).
-/

namespace TarReorder

open List

/-- Structural kind of a tar member: `reg` for `isreg()`/`isfile()`,
`dir` for `isdir()`, `other` for "symlinks & such" (line 98). -/
inductive FKind where
  | reg
  | dir
  | other
deriving DecidableEq, Repr

/-- A tar member as the reorder core sees it: full slash-separated path
(`f.name`), structural kind, and the CPython object identity (`addr`)
that Python 2's default object comparison uses when `list.sort()` is
called on `TarInfo` objects that define no ordering. -/
structure Entry where
  name : String
  kind : FKind
  addr : Nat
deriving DecidableEq, Repr

namespace reorder_by

/-- `reorder_by.type = 1` (line 55). -/
def type : Nat := 1

/-- `reorder_by.ext = 2` (line 56). -/
def ext : Nat := 2

/-- `reorder_by.name = 3` (line 57). -/
def name : Nat := 3

/-- `reorder_by.last = 4` (line 58). -/
def last : Nat := 4

end reorder_by

/-- `os.path.split(p)[1]`: the final path segment, everything after the
last `/` (the whole path when it has no `/`). -/
def baseNameChars (p : List Char) : List Char :=
  (p.reverse.takeWhile (fun c => c ≠ '/')).reverse

/-- `posixpath.splitext(p)`: split `p` into `(root, ext)` where `ext` is
the suffix of the final path segment starting at its last dot — except
that the leading dots of the segment never start an extension (so
`.bashrc` has no extension).  Returns `(p, [])` when there is no
extension. -/
def splitextChars (p : List Char) : List Char × List Char :=
  let base := baseNameChars p
  let rest := base.dropWhile (fun c => c = '.')
  if rest.any (fun c => c = '.') then
    let ext := '.' :: (rest.reverse.takeWhile (fun c => c ≠ '.')).reverse
    (p.take (p.length - ext.length), ext)
  else (p, [])

/-- The `while 1` loop of lines 111-121: repeatedly strip the rightmost
extension with `splitext` until none remains, concatenating the stripped
suffixes in strip order (`'.tar.bz2'` yields `.bz2.tar`).  Each strip
removes at least one character, so `p.length` steps of fuel always
suffice; `extChainAux_fuel` below proves fuel irrelevance. -/
def extChainAux : Nat → List Char → List Char
  | 0, _ => []
  | fuel + 1, p =>
    let se := splitextChars p
    if se.2 = [] then [] else se.2 ++ extChainAux fuel se.1

/-- `''.join(exts)` for the stripped-extension list of `f.name`
(lines 108-121). -/
def extChainChars (p : List Char) : List Char :=
  extChainAux p.length p

/-- String version of `extChainChars`, the `reorder_by.ext` grouping key. -/
def extChainKey (s : String) : String :=
  ⟨extChainChars s.data⟩

/-- String version of `baseNameChars`, the `reorder_by.name` grouping key
(`os.path.split(f.name)[1]`, line 124). -/
def baseKey (s : String) : String :=
  ⟨baseNameChars s.data⟩

/-- Where one iteration of the `for f in inlist` loop routes the entry:
appended to `before`, appended to `after`, appended to the group of key
`k`, or nowhere (no branch fires and `key` stays `None`). -/
inductive Route where
  | toBefore
  | toAfter
  | toKey (k : String)
  | dropped
deriving DecidableEq, Repr

/-- The classification performed by lines 92-127 for one entry `f` under
criterion `crit`, with `um = opts.usemagic` and `sniff` the
libmagic oracle (`wizard.buffer` on the first 4096 bytes; `none` models
an unrecognised type, which line 105-106 turns into the empty key). -/
def classify (um : Bool) (sniff : Entry → Option String) (crit : Nat) (f : Entry) : Route :=
  if crit = reorder_by.type then
    if f.kind = FKind.dir then Route.toBefore
    else if f.kind = FKind.other then Route.toAfter
    else Route.toKey ((if um then sniff f else none).getD "")
  else if crit = reorder_by.ext then Route.toKey (extChainKey f.name)
  else if crit = reorder_by.name then Route.toKey (baseKey f.name)
  else if crit = reorder_by.last then Route.toBefore
  else Route.dropped

/-- The three collections accumulated by the loop: `before`, the `out`
dict (association list; the order of the keys is irrelevant because the
emission sorts them), and `after`. -/
structure Partition where
  before : List Entry
  groups : List (String × List Entry)
  after : List Entry
deriving DecidableEq, Repr

/-- `out[key].append(f)` preceded by `if not key in out.keys(): out[key] = []`
(lines 130-132), for an entry `f` that comes before everything already in
`gs`. -/
def addGroup (k : String) (f : Entry) : List (String × List Entry) → List (String × List Entry)
  | [] => [(k, [f])]
  | (k', g) :: rest =>
    if k' = k then (k', f :: g) :: rest else (k', g) :: addGroup k f rest

/-- The whole `for f in inlist` loop (lines 91-132): route every entry of
`l` under criterion `crit`, preserving relative input order inside each
collection. -/
def partitionStep (um : Bool) (sniff : Entry → Option String) (crit : Nat) :
    List Entry → Partition
  | [] => ⟨[], [], []⟩
  | f :: fs =>
    let p := partitionStep um sniff crit fs
    match classify um sniff crit f with
    | Route.toBefore => ⟨f :: p.before, p.groups, p.after⟩
    | Route.toAfter => ⟨p.before, p.groups, f :: p.after⟩
    | Route.toKey k => ⟨p.before, addGroup k f p.groups, p.after⟩
    | Route.dropped => p

/-- `out[k]`: the entry list stored under key `k` (empty when absent). -/
def lookupGroup : List (String × List Entry) → String → List Entry
  | [], _ => []
  | (k', g) :: rest, k => if k' = k then g else lookupGroup rest k

/-- The order `before.sort()` / `after.sort()` actually uses: the entries
are Python 2 `TarInfo` objects with no comparison methods, so CPython's
`default_3way_compare` orders same-type objects by memory address. -/
def entryLe (a b : Entry) : Prop := a.addr ≤ b.addr

instance : DecidableRel entryLe :=
  fun a b => inferInstanceAs (Decidable (a.addr ≤ b.addr))

instance : IsTotal Entry entryLe := ⟨fun a b => Nat.le_total a.addr b.addr⟩

instance : IsTrans Entry entryLe := ⟨fun _ _ _ => Nat.le_trans⟩

/-- `before.sort()` / `after.sort()` (lines 137-138): a stable sort by
the total preorder `entryLe`. -/
def sortEntries (l : List Entry) : List Entry :=
  List.insertionSort entryLe l

/-- Python 2's string comparison, which for the byte strings used as
grouping keys is plain lexicographic order on character codes:
`charListLe a b` decides `a <= b`. -/
def charListLe : List Char → List Char → Bool
  | [], _ => true
  | _ :: _, [] => false
  | a :: as, b :: bs =>
    if a.toNat < b.toNat then true
    else if b.toNat < a.toNat then false
    else charListLe as bs

/-- The ascending key order of `sorted(out.keys())`: Python's
lexicographic string order. -/
def keyLe (a b : String) : Prop := charListLe a.data b.data = true

instance : DecidableRel keyLe :=
  fun a b => inferInstanceAs (Decidable (charListLe a.data b.data = true))

/-- `sorted(out.keys())` (line 141): the group keys in ascending
lexicographic string order. -/
def sortKeys (ks : List String) : List String :=
  List.insertionSort keyLe ks

/-- `crit + 1`, the criterion handed to every recursive call (line 142). -/
def nextCrit (crit : Nat) : Nat := crit + 1

/-- `reorder(inlist, crit, ...)` (lines 67-143) with explicit fuel: lists
of at most one entry are emitted verbatim (lines 85-87); otherwise the
partition is emitted as `sorted(before)`, then each keyed group in
ascending key order recursed with `crit + 1`, then `sorted(after)`
(lines 137-143).  Out of fuel it returns `[]`; `reorderF_fuel_succ`
shows fuel ≥ 5 never runs out. -/
def reorderF (um : Bool) (sniff : Entry → Option String) :
    Nat → Nat → List Entry → List Entry
  | 0, _, _ => []
  | fuel + 1, crit, inlist =>
    if inlist.length ≤ 1 then inlist
    else
      sortEntries (partitionStep um sniff crit inlist).before
        ++ (sortKeys ((partitionStep um sniff crit inlist).groups.map Prod.fst)).flatMap
            (fun k => reorderF um sniff fuel (nextCrit crit)
              (lookupGroup (partitionStep um sniff crit inlist).groups k))
        ++ sortEntries (partitionStep um sniff crit inlist).after

/-- The reorder of lines 67-143.  Groups only form at criteria 1-3
(`partitionStep_groups_crit`), so the recursion visits at most the
criteria `crit, crit+1, …, 4` and fuel 5 is always enough
(`reorderF_fuel_succ`). -/
def reorder (um : Bool) (sniff : Entry → Option String) (crit : Nat)
    (inlist : List Entry) : List Entry :=
  reorderF um sniff 5 crit inlist

/-! ### Facts about `classify` -/

theorem reorder_by_type_eq : reorder_by.type = 1 := rfl

theorem reorder_by_ext_eq : reorder_by.ext = 2 := rfl

theorem reorder_by_name_eq : reorder_by.name = 3 := rfl

theorem reorder_by_last_eq : reorder_by.last = 4 := rfl

theorem classify_type_reg {um : Bool} {sniff : Entry → Option String} {f : Entry}
    (h : f.kind = FKind.reg) :
    classify um sniff reorder_by.type f
      = Route.toKey ((if um then sniff f else none).getD "") := by
  simp [classify, h]

theorem classify_type_dir {um : Bool} {sniff : Entry → Option String} {f : Entry}
    (h : f.kind = FKind.dir) :
    classify um sniff reorder_by.type f = Route.toBefore := by
  simp [classify, h]

theorem classify_type_other {um : Bool} {sniff : Entry → Option String} {f : Entry}
    (h : f.kind = FKind.other) :
    classify um sniff reorder_by.type f = Route.toAfter := by
  simp [classify, h]

theorem classify_ext (um : Bool) (sniff : Entry → Option String) (f : Entry) :
    classify um sniff reorder_by.ext f = Route.toKey (extChainKey f.name) := by
  simp [classify, reorder_by.ext, reorder_by.type]

theorem classify_name (um : Bool) (sniff : Entry → Option String) (f : Entry) :
    classify um sniff reorder_by.name f = Route.toKey (baseKey f.name) := by
  simp [classify, reorder_by.name, reorder_by.type, reorder_by.ext]

theorem classify_last (um : Bool) (sniff : Entry → Option String) (f : Entry) :
    classify um sniff reorder_by.last f = Route.toBefore := by
  simp [classify, reorder_by.last, reorder_by.type, reorder_by.ext, reorder_by.name]

theorem classify_out_of_range {crit : Nat} (um : Bool) (sniff : Entry → Option String)
    (f : Entry) (h : crit = 0 ∨ 5 ≤ crit) :
    classify um sniff crit f = Route.dropped := by
  have h1 : crit ≠ reorder_by.type := by simp [reorder_by.type]; omega
  have h2 : crit ≠ reorder_by.ext := by simp [reorder_by.ext]; omega
  have h3 : crit ≠ reorder_by.name := by simp [reorder_by.name]; omega
  have h4 : crit ≠ reorder_by.last := by simp [reorder_by.last]; omega
  simp [classify, h1, h2, h3, h4]

theorem classify_toKey_crit {um : Bool} {sniff : Entry → Option String} {crit : Nat}
    {f : Entry} {k : String} (h : classify um sniff crit f = Route.toKey k) :
    crit = reorder_by.type ∨ crit = reorder_by.ext ∨ crit = reorder_by.name := by
  unfold classify at h
  split_ifs at h <;> tauto

theorem classify_ne_dropped {um : Bool} {sniff : Entry → Option String} {crit : Nat}
    {f : Entry} (h1 : 1 ≤ crit) (h4 : crit ≤ reorder_by.last) :
    classify um sniff crit f ≠ Route.dropped := by
  unfold classify
  split_ifs with hc1 hk1 hk2 hc2 hc3 hc4 <;>
    simp_all [reorder_by.type, reorder_by.ext, reorder_by.name, reorder_by.last]
  omega

/-! ### Facts about `partitionStep` -/

theorem partitionStep_before (um : Bool) (sniff : Entry → Option String) (crit : Nat)
    (l : List Entry) :
    (partitionStep um sniff crit l).before
      = l.filter (fun f => classify um sniff crit f = Route.toBefore) := by
  induction l with
  | nil => rfl
  | cons f fs ih =>
    simp only [partitionStep]
    cases h : classify um sniff crit f <;> simp [List.filter_cons, h, ih]

theorem partitionStep_after (um : Bool) (sniff : Entry → Option String) (crit : Nat)
    (l : List Entry) :
    (partitionStep um sniff crit l).after
      = l.filter (fun f => classify um sniff crit f = Route.toAfter) := by
  induction l with
  | nil => rfl
  | cons f fs ih =>
    simp only [partitionStep]
    cases h : classify um sniff crit f <;> simp [List.filter_cons, h, ih]

theorem lookupGroup_addGroup (k' : String) (f : Entry) (gs : List (String × List Entry))
    (k : String) :
    lookupGroup (addGroup k' f gs) k
      = if k' = k then f :: lookupGroup gs k else lookupGroup gs k := by
  induction gs with
  | nil => by_cases h : k' = k <;> simp [addGroup, lookupGroup, h]
  | cons kg rest ih =>
    obtain ⟨k'', g⟩ := kg
    by_cases h1 : k'' = k'
    · subst h1
      rw [addGroup, if_pos rfl]
      by_cases h2 : k'' = k <;> simp [lookupGroup, h2]
    · rw [addGroup, if_neg h1]
      by_cases h2 : k'' = k
      · subst h2
        have hk : ¬k' = k'' := fun hh => h1 hh.symm
        simp [lookupGroup, hk]
      · simp [lookupGroup, h2, ih]

theorem partitionStep_lookup (um : Bool) (sniff : Entry → Option String) (crit : Nat)
    (l : List Entry) (k : String) :
    lookupGroup (partitionStep um sniff crit l).groups k
      = l.filter (fun f => classify um sniff crit f = Route.toKey k) := by
  induction l with
  | nil => rfl
  | cons f fs ih =>
    simp only [partitionStep]
    cases h : classify um sniff crit f <;>
      simp [List.filter_cons, h, ih, lookupGroup_addGroup]

theorem mem_keys_addGroup {k k' : String} {f : Entry} {gs : List (String × List Entry)} :
    k ∈ (addGroup k' f gs).map Prod.fst ↔ k = k' ∨ k ∈ gs.map Prod.fst := by
  induction gs with
  | nil => simp [addGroup, eq_comm]
  | cons kg rest ih =>
    obtain ⟨k'', g⟩ := kg
    by_cases h1 : k'' = k' <;> simp_all [addGroup, h1, ih]
    tauto

theorem keys_nodup_addGroup {k' : String} {f : Entry} {gs : List (String × List Entry)}
    (h : (gs.map Prod.fst).Nodup) : ((addGroup k' f gs).map Prod.fst).Nodup := by
  induction gs with
  | nil => simp [addGroup]
  | cons kg rest ih =>
    obtain ⟨k'', g⟩ := kg
    rw [List.map_cons, List.nodup_cons] at h
    by_cases h1 : k'' = k'
    · rw [addGroup, if_pos h1, List.map_cons, List.nodup_cons]
      exact ⟨h.1, h.2⟩
    · rw [addGroup, if_neg h1, List.map_cons, List.nodup_cons]
      refine ⟨fun hmem => ?_, ih h.2⟩
      rcases mem_keys_addGroup.mp hmem with h' | h'
      · exact h1 h'
      · exact h.1 h'

theorem partitionStep_keys_nodup (um : Bool) (sniff : Entry → Option String) (crit : Nat)
    (l : List Entry) : ((partitionStep um sniff crit l).groups.map Prod.fst).Nodup := by
  induction l with
  | nil => simp [partitionStep]
  | cons f fs ih =>
    simp only [partitionStep]
    cases h : classify um sniff crit f <;> simp [h, ih, keys_nodup_addGroup]

theorem mem_keys_partition {um : Bool} {sniff : Entry → Option String} {crit : Nat}
    {l : List Entry} {k : String} :
    k ∈ (partitionStep um sniff crit l).groups.map Prod.fst
      ↔ ∃ f ∈ l, classify um sniff crit f = Route.toKey k := by
  induction l with
  | nil => simp [partitionStep]
  | cons f fs ih =>
    simp only [partitionStep]
    cases h : classify um sniff crit f
    case toBefore => simp [h, ih]
    case toAfter => simp [h, ih]
    case dropped => simp [h, ih]
    case toKey k' =>
      simp only [List.mem_cons, mem_keys_addGroup, ih]
      constructor
      · rintro (rfl | ⟨x, hx, hcx⟩)
        · exact ⟨f, Or.inl rfl, h⟩
        · exact ⟨x, Or.inr hx, hcx⟩
      · rintro ⟨x, hx | hx, hcx⟩
        · subst hx
          rw [h] at hcx
          exact Or.inl (Route.toKey.inj hcx).symm
        · exact Or.inr ⟨x, hx, hcx⟩

theorem partitionStep_groups_crit {um : Bool} {sniff : Entry → Option String} {crit : Nat}
    {l : List Entry} (h : (partitionStep um sniff crit l).groups ≠ []) :
    crit = reorder_by.type ∨ crit = reorder_by.ext ∨ crit = reorder_by.name := by
  induction l with
  | nil => simp [partitionStep] at h
  | cons f fs ih =>
    simp only [partitionStep] at h
    cases hc : classify um sniff crit f <;> rw [hc] at h
    case toBefore => exact ih h
    case toAfter => exact ih h
    case dropped => exact ih h
    case toKey k => exact classify_toKey_crit hc

/-! ### The partition is a permutation of its input -/

theorem flatMap_congr_mem {α β : Type} {l : List α} {f g : α → List β}
    (h : ∀ a ∈ l, f a = g a) : l.flatMap f = l.flatMap g := by
  induction l with
  | nil => rfl
  | cons a as ih =>
    rw [List.flatMap_cons, List.flatMap_cons, h a (List.mem_cons_self a as),
      ih fun x hx => h x (List.mem_cons_of_mem a hx)]

theorem addGroup_flatMap_perm (k : String) (f : Entry) (gs : List (String × List Entry)) :
    (addGroup k f gs).flatMap Prod.snd ~ f :: gs.flatMap Prod.snd := by
  induction gs with
  | nil => simp [addGroup]
  | cons kg rest ih =>
    obtain ⟨k', g⟩ := kg
    by_cases h : k' = k
    · simp [addGroup, h]
    · rw [addGroup, if_neg h]
      simp only [List.flatMap_cons]
      exact (ih.append_left g).trans List.perm_middle

theorem partitionStep_perm (um : Bool) (sniff : Entry → Option String) {crit : Nat}
    (h1 : 1 ≤ crit) (h4 : crit ≤ reorder_by.last) (l : List Entry) :
    l ~ (partitionStep um sniff crit l).before
        ++ (partitionStep um sniff crit l).groups.flatMap Prod.snd
        ++ (partitionStep um sniff crit l).after := by
  induction l with
  | nil => rfl
  | cons f fs ih =>
    simp only [partitionStep]
    cases hc : classify um sniff crit f
    case toBefore => exact ih.cons f
    case toAfter => exact (ih.cons f).trans List.perm_middle.symm
    case dropped => exact absurd hc (classify_ne_dropped h1 h4)
    case toKey k =>
      refine (ih.cons f).trans ?_
      have h2 : (partitionStep um sniff crit fs).before
            ++ (addGroup k f (partitionStep um sniff crit fs).groups).flatMap Prod.snd
            ++ (partitionStep um sniff crit fs).after
          ~ (partitionStep um sniff crit fs).before
            ++ (f :: (partitionStep um sniff crit fs).groups.flatMap Prod.snd)
            ++ (partitionStep um sniff crit fs).after :=
        (((addGroup_flatMap_perm k f _).append_left _).append_right _)
      refine Perm.trans ?_ h2.symm
      rw [← List.cons_append]
      exact ((List.perm_middle.append_right _).symm)

/-! ### Fuel irrelevance for `reorderF` and the unfolding equation -/

theorem reorderF_fuel_succ (um : Bool) (sniff : Entry → Option String) :
    ∀ fuel crit : Nat, 5 ≤ fuel + crit → 1 ≤ fuel → ∀ l,
      reorderF um sniff (fuel + 1) crit l = reorderF um sniff fuel crit l := by
  intro fuel
  induction fuel with
  | zero => intro crit h h1; omega
  | succ f ih =>
    intro crit h _ l
    by_cases hl : l.length ≤ 1
    · rw [reorderF, reorderF, if_pos hl, if_pos hl]
    · rw [reorderF, reorderF, if_neg hl, if_neg hl]
      congr 2
      apply flatMap_congr_mem
      intro k hk
      have hne : (partitionStep um sniff crit l).groups ≠ [] := by
        intro hnil
        rw [hnil] at hk
        simp [sortKeys] at hk
      have hcrit := partitionStep_groups_crit hne
      rw [reorder_by_type_eq, reorder_by_ext_eq, reorder_by_name_eq] at hcrit
      exact ih (nextCrit crit) (by simp [nextCrit]; omega) (by omega) _

theorem reorderF_fuel_add (um : Bool) (sniff : Entry → Option String) (d : Nat) :
    ∀ fuel crit : Nat, 5 ≤ fuel + crit → 1 ≤ fuel → ∀ l,
      reorderF um sniff (fuel + d) crit l = reorderF um sniff fuel crit l := by
  induction d with
  | zero => intro fuel crit _ _ l; rfl
  | succ e ih =>
    intro fuel crit h h1 l
    rw [show fuel + (e + 1) = (fuel + e) + 1 by omega]
    rw [reorderF_fuel_succ um sniff (fuel + e) crit (by omega) (by omega) l]
    exact ih fuel crit h h1 l

theorem reorderF_eq_reorder (um : Bool) (sniff : Entry → Option String) {fuel crit : Nat}
    (h : 5 ≤ fuel + crit) (h1 : 1 ≤ fuel) (l : List Entry) :
    reorderF um sniff fuel crit l = reorder um sniff crit l := by
  rw [reorder]
  rcases Nat.le_total fuel 5 with hle | hge
  · conv_rhs => rw [show (5 : Nat) = fuel + (5 - fuel) by omega]
    rw [reorderF_fuel_add um sniff (5 - fuel) fuel crit h h1 l]
  · conv_lhs => rw [show fuel = 5 + (fuel - 5) by omega]
    rw [reorderF_fuel_add um sniff (fuel - 5) 5 crit (by omega) (by omega) l]

theorem reorder_unfold (um : Bool) (sniff : Entry → Option String) (crit : Nat)
    (l : List Entry) :
    reorder um sniff crit l
      = if l.length ≤ 1 then l
        else
          sortEntries (partitionStep um sniff crit l).before
            ++ (sortKeys ((partitionStep um sniff crit l).groups.map Prod.fst)).flatMap
                (fun k => reorder um sniff (nextCrit crit)
                  (lookupGroup (partitionStep um sniff crit l).groups k))
            ++ sortEntries (partitionStep um sniff crit l).after := by
  have h0 : reorder um sniff crit l
      = if l.length ≤ 1 then l
        else
          sortEntries (partitionStep um sniff crit l).before
            ++ (sortKeys ((partitionStep um sniff crit l).groups.map Prod.fst)).flatMap
                (fun k => reorderF um sniff 4 (nextCrit crit)
                  (lookupGroup (partitionStep um sniff crit l).groups k))
            ++ sortEntries (partitionStep um sniff crit l).after := rfl
  rw [h0]
  have hmid : (sortKeys ((partitionStep um sniff crit l).groups.map Prod.fst)).flatMap
        (fun k => reorderF um sniff 4 (nextCrit crit)
          (lookupGroup (partitionStep um sniff crit l).groups k))
      = (sortKeys ((partitionStep um sniff crit l).groups.map Prod.fst)).flatMap
        (fun k => reorder um sniff (nextCrit crit)
          (lookupGroup (partitionStep um sniff crit l).groups k)) := by
    apply flatMap_congr_mem
    intro k _
    exact reorderF_eq_reorder um sniff (by simp [nextCrit]; omega) (by omega) _
  rw [hmid]

/-! ### Sorting facts -/

theorem sortEntries_perm (l : List Entry) : sortEntries l ~ l :=
  List.perm_insertionSort entryLe l

theorem sortEntries_idem (l : List Entry) : sortEntries (sortEntries l) = sortEntries l :=
  List.Sorted.insertionSort_eq (List.sorted_insertionSort entryLe l)

theorem charListLe_total : ∀ a b : List Char, charListLe a b = true ∨ charListLe b a = true := by
  intro a
  induction a with
  | nil => intro b; left; rfl
  | cons x xs ih =>
    intro b
    cases b with
    | nil => right; rfl
    | cons y ys =>
      simp only [charListLe]
      by_cases h1 : x.toNat < y.toNat
      · left
        rw [if_pos h1]
      · by_cases h2 : y.toNat < x.toNat
        · right
          rw [if_pos h2]
        · rcases ih ys with h | h
          · left
            rw [if_neg h1, if_neg h2]
            exact h
          · right
            rw [if_neg h2, if_neg h1]
            exact h

theorem charListLe_trans : ∀ a b c : List Char,
    charListLe a b = true → charListLe b c = true → charListLe a c = true := by
  intro a
  induction a with
  | nil => intro b c _ _; rfl
  | cons x xs ih =>
    intro b c hab hbc
    cases b with
    | nil => simp [charListLe] at hab
    | cons y ys =>
      cases c with
      | nil => simp [charListLe] at hbc
      | cons z zs =>
        simp only [charListLe] at hab hbc ⊢
        by_cases h1 : x.toNat < y.toNat
        · by_cases h2 : y.toNat < z.toNat
          · rw [if_pos (show x.toNat < z.toNat by omega)]
          · rw [if_neg h2] at hbc
            by_cases h4 : z.toNat < y.toNat
            · rw [if_pos h4] at hbc
              exact absurd hbc (by simp)
            · rw [if_pos (show x.toNat < z.toNat by omega)]
        · rw [if_neg h1] at hab
          by_cases h5 : y.toNat < x.toNat
          · rw [if_pos h5] at hab
            exact absurd hab (by simp)
          · rw [if_neg h5] at hab
            by_cases h2 : y.toNat < z.toNat
            · rw [if_pos (show x.toNat < z.toNat by omega)]
            · rw [if_neg h2] at hbc
              by_cases h4 : z.toNat < y.toNat
              · rw [if_pos h4] at hbc
                exact absurd hbc (by simp)
              · rw [if_neg h4] at hbc
                rw [if_neg (show ¬x.toNat < z.toNat by omega),
                  if_neg (show ¬z.toNat < x.toNat by omega)]
                exact ih ys zs hab hbc

theorem charListLe_antisymm : ∀ a b : List Char,
    charListLe a b = true → charListLe b a = true → a = b := by
  intro a
  induction a with
  | nil =>
    intro b _ hba
    cases b with
    | nil => rfl
    | cons y ys => simp [charListLe] at hba
  | cons x xs ih =>
    intro b hab hba
    cases b with
    | nil => simp [charListLe] at hab
    | cons y ys =>
      simp only [charListLe] at hab hba
      by_cases h1 : x.toNat < y.toNat
      · rw [if_neg (show ¬y.toNat < x.toNat by omega), if_pos h1] at hba
        exact absurd hba (by simp)
      · by_cases h2 : y.toNat < x.toNat
        · rw [if_neg h1, if_pos h2] at hab
          exact absurd hab (by simp)
        · rw [if_neg h1, if_neg h2] at hab
          rw [if_neg h2, if_neg h1] at hba
          have hn : x.toNat = y.toNat := by omega
          have hchar : x = y := Char.ext (UInt32.ext hn)
          rw [hchar, ih ys hab hba]

instance : IsTotal String keyLe := ⟨fun a b => charListLe_total a.data b.data⟩

instance : IsTrans String keyLe := ⟨fun a b c => charListLe_trans a.data b.data c.data⟩

instance : IsAntisymm String keyLe :=
  ⟨fun a b hab hba => by
    have h := charListLe_antisymm a.data b.data hab hba
    cases a
    cases b
    exact congrArg String.mk h⟩

theorem sortKeys_perm (ks : List String) : sortKeys ks ~ ks :=
  List.perm_insertionSort _ ks

theorem sortKeys_sorted (ks : List String) : (sortKeys ks).Sorted keyLe :=
  List.sorted_insertionSort _ ks

theorem sortKeys_eq_of_perm {ks₁ ks₂ : List String} (h : ks₁ ~ ks₂) :
    sortKeys ks₁ = sortKeys ks₂ :=
  List.eq_of_perm_of_sorted ((sortKeys_perm ks₁).trans (h.trans (sortKeys_perm ks₂).symm))
    (sortKeys_sorted ks₁) (sortKeys_sorted ks₂)

/-! ### `reorder` emits a permutation of its input -/

theorem crit_bound_of_mem_sortKeys {um : Bool} {sniff : Entry → Option String} {crit : Nat}
    {l : List Entry} {k : String}
    (hk : k ∈ sortKeys ((partitionStep um sniff crit l).groups.map Prod.fst)) :
    crit = 1 ∨ crit = 2 ∨ crit = 3 := by
  have hmem : k ∈ (partitionStep um sniff crit l).groups.map Prod.fst :=
    ((sortKeys_perm _).mem_iff).mp hk
  have hne : (partitionStep um sniff crit l).groups ≠ [] := by
    intro h0
    rw [h0] at hmem
    simp at hmem
  have h := partitionStep_groups_crit hne
  simpa [reorder_by.type, reorder_by.ext, reorder_by.name] using h

theorem flatMap_lookup_keys {gs : List (String × List Entry)}
    (h : (gs.map Prod.fst).Nodup) :
    (gs.map Prod.fst).flatMap (lookupGroup gs) = gs.flatMap Prod.snd := by
  induction gs with
  | nil => rfl
  | cons kg rest ih =>
    obtain ⟨k, g⟩ := kg
    rw [List.map_cons, List.nodup_cons] at h
    rw [List.map_cons, List.flatMap_cons, List.flatMap_cons]
    have hhead : lookupGroup ((k, g) :: rest) k = g := by simp [lookupGroup]
    rw [hhead]
    congr 1
    rw [← ih h.2]
    apply flatMap_congr_mem
    intro k' hk'
    have hne : ¬k = k' := fun he => h.1 (he ▸ hk')
    simp [lookupGroup, hne]

theorem reorder_perm_aux (um : Bool) (sniff : Entry → Option String) :
    ∀ n crit : Nat, crit + n = 5 → 1 ≤ crit → crit ≤ reorder_by.last →
      ∀ l, reorder um sniff crit l ~ l := by
  intro n
  induction n with
  | zero =>
    intro crit hc _ h4
    rw [reorder_by_last_eq] at h4
    omega
  | succ m ih =>
    intro crit hc h1 h4 l
    rw [reorder_unfold]
    by_cases hl : l.length ≤ 1
    · rw [if_pos hl]
    · rw [if_neg hl]
      refine Perm.trans ?_ (partitionStep_perm um sniff h1 h4 l).symm
      refine Perm.append (Perm.append (sortEntries_perm _) ?_) (sortEntries_perm _)
      have step1 : (sortKeys ((partitionStep um sniff crit l).groups.map Prod.fst)).flatMap
            (fun k => reorder um sniff (nextCrit crit)
              (lookupGroup (partitionStep um sniff crit l).groups k))
          ~ (sortKeys ((partitionStep um sniff crit l).groups.map Prod.fst)).flatMap
            (lookupGroup (partitionStep um sniff crit l).groups) := by
        apply Perm.flatMap_left
        intro k hk
        have hcrit := crit_bound_of_mem_sortKeys hk
        refine ih (nextCrit crit) (by simp [nextCrit]; omega) (by simp [nextCrit])
          (by rw [reorder_by_last_eq]; simp [nextCrit]; omega) _
      refine step1.trans ?_
      refine Perm.trans (((sortKeys_perm _).flatMap_right _)) ?_
      rw [flatMap_lookup_keys (partitionStep_keys_nodup um sniff crit l)]

theorem reorder_perm (um : Bool) (sniff : Entry → Option String) {crit : Nat}
    (h1 : 1 ≤ crit) (h4 : crit ≤ reorder_by.last) (l : List Entry) :
    reorder um sniff crit l ~ l :=
  reorder_perm_aux um sniff (5 - crit) crit
    (by rw [reorder_by_last_eq] at h4; omega) h1 h4 l

/-! ### Classification of partition members -/

theorem classify_of_mem_before {um : Bool} {sniff : Entry → Option String} {crit : Nat}
    {l : List Entry} {x : Entry} (h : x ∈ (partitionStep um sniff crit l).before) :
    classify um sniff crit x = Route.toBefore := by
  rw [partitionStep_before] at h
  simpa using (List.mem_filter.mp h).2

theorem classify_of_mem_after {um : Bool} {sniff : Entry → Option String} {crit : Nat}
    {l : List Entry} {x : Entry} (h : x ∈ (partitionStep um sniff crit l).after) :
    classify um sniff crit x = Route.toAfter := by
  rw [partitionStep_after] at h
  simpa using (List.mem_filter.mp h).2

theorem classify_of_mem_lookup {um : Bool} {sniff : Entry → Option String} {crit : Nat}
    {l : List Entry} {k : String} {x : Entry}
    (h : x ∈ lookupGroup (partitionStep um sniff crit l).groups k) :
    classify um sniff crit x = Route.toKey k := by
  rw [partitionStep_lookup] at h
  simpa using (List.mem_filter.mp h).2

/-! ### Degenerate criteria: everything dropped, or everything `before` -/

theorem partitionStep_all_dropped {um : Bool} {sniff : Entry → Option String} {crit : Nat}
    (hall : ∀ f : Entry, classify um sniff crit f = Route.dropped) (l : List Entry) :
    partitionStep um sniff crit l = ⟨[], [], []⟩ := by
  induction l with
  | nil => rfl
  | cons f fs ih => simp [partitionStep, hall f, ih]

theorem partitionStep_all_before {um : Bool} {sniff : Entry → Option String} {crit : Nat}
    (hall : ∀ f : Entry, classify um sniff crit f = Route.toBefore) (l : List Entry) :
    partitionStep um sniff crit l = ⟨l, [], []⟩ := by
  induction l with
  | nil => rfl
  | cons f fs ih => simp [partitionStep, hall f, ih]

theorem reorder_out_of_range {um : Bool} {sniff : Entry → Option String} {crit : Nat}
    (h : crit = 0 ∨ 5 ≤ crit) (l : List Entry) :
    reorder um sniff crit l = if l.length ≤ 1 then l else [] := by
  rw [reorder_unfold]
  by_cases hl : l.length ≤ 1
  · rw [if_pos hl, if_pos hl]
  · rw [if_neg hl, if_neg hl,
      partitionStep_all_dropped (fun f => classify_out_of_range um sniff f h) l]
    rfl

theorem reorder_last_eq {um : Bool} {sniff : Entry → Option String} (l : List Entry) :
    reorder um sniff reorder_by.last l = if l.length ≤ 1 then l else sortEntries l := by
  rw [reorder_unfold]
  by_cases hl : l.length ≤ 1
  · rw [if_pos hl, if_pos hl]
  · rw [if_neg hl, if_neg hl,
      partitionStep_all_before (fun f => classify_last um sniff f) l]
    simp [sortKeys, sortEntries, List.insertionSort]

/-! ### Helpers for the idempotence proof -/

theorem filter_flatMap_eq {α β : Type} (l : List α) (f : α → List β) (p : β → Bool) :
    (l.flatMap f).filter p = l.flatMap fun a => (f a).filter p := by
  induction l with
  | nil => rfl
  | cons a as ih => simp [List.flatMap_cons, List.filter_append, ih]

theorem flatMap_eq_nil_of {α β : Type} {l : List α} {f : α → List β}
    (h : ∀ a ∈ l, f a = []) : l.flatMap f = [] := by
  induction l with
  | nil => rfl
  | cons a as ih =>
    rw [List.flatMap_cons, h a (List.mem_cons_self a as), List.nil_append]
    exact ih fun x hx => h x (List.mem_cons_of_mem a hx)

theorem flatMap_eq_single {β : Type} {ks : List String} {k : String}
    (hnd : ks.Nodup) (hk : k ∈ ks) (h : String → List β)
    (hz : ∀ k' ∈ ks, k' ≠ k → h k' = []) :
    ks.flatMap h = h k := by
  induction ks with
  | nil => cases hk
  | cons a as ih =>
    rw [List.nodup_cons] at hnd
    rw [List.flatMap_cons]
    rcases List.mem_cons.mp hk with rfl | hk'
    · rw [flatMap_eq_nil_of fun k' hk' =>
        hz k' (List.mem_cons_of_mem k hk') fun he => hnd.1 (he ▸ hk')]
      rw [List.append_nil]
    · rw [hz a (List.mem_cons_self a as) fun he => hnd.1 (he ▸ hk'), List.nil_append]
      exact ih hnd.2 hk' fun k' h1 h2 => hz k' (List.mem_cons_of_mem a h1) h2

/-! ### Re-partitioning the output of `reorder` -/

theorem partition_reorder_before (um : Bool) (sniff : Entry → Option String) {crit : Nat}
    (h1 : 1 ≤ crit) (h3 : crit ≤ 3) (l : List Entry) (hl : ¬l.length ≤ 1) :
    (partitionStep um sniff crit (reorder um sniff crit l)).before
      = sortEntries (partitionStep um sniff crit l).before := by
  have hnx1 : 1 ≤ nextCrit crit := by simp [nextCrit]
  have hnx4 : nextCrit crit ≤ reorder_by.last := by
    rw [reorder_by_last_eq]; simp [nextCrit]; omega
  rw [partitionStep_before um sniff crit (reorder um sniff crit l),
    reorder_unfold um sniff crit l, if_neg hl, List.filter_append, List.filter_append]
  have hA : (sortEntries (partitionStep um sniff crit l).before).filter
      (fun f => classify um sniff crit f = Route.toBefore)
      = sortEntries (partitionStep um sniff crit l).before := by
    apply List.filter_eq_self.mpr
    intro x hx
    simp only [decide_eq_true_eq]
    exact classify_of_mem_before ((sortEntries_perm _).subset hx)
  have hB : (((sortKeys ((partitionStep um sniff crit l).groups.map Prod.fst)).flatMap
      (fun k => reorder um sniff (nextCrit crit)
        (lookupGroup (partitionStep um sniff crit l).groups k)))).filter
      (fun f => classify um sniff crit f = Route.toBefore) = [] := by
    apply List.filter_eq_nil_iff.mpr
    intro x hx
    simp only [decide_eq_true_eq]
    obtain ⟨k, _, hxk⟩ := List.mem_flatMap.mp hx
    rw [classify_of_mem_lookup ((reorder_perm um sniff hnx1 hnx4 _).subset hxk)]
    simp
  have hC : (sortEntries (partitionStep um sniff crit l).after).filter
      (fun f => classify um sniff crit f = Route.toBefore) = [] := by
    apply List.filter_eq_nil_iff.mpr
    intro x hx
    simp only [decide_eq_true_eq]
    rw [classify_of_mem_after ((sortEntries_perm _).subset hx)]
    simp
  rw [hA, hB, hC, List.append_nil, List.append_nil]

theorem partition_reorder_after (um : Bool) (sniff : Entry → Option String) {crit : Nat}
    (h1 : 1 ≤ crit) (h3 : crit ≤ 3) (l : List Entry) (hl : ¬l.length ≤ 1) :
    (partitionStep um sniff crit (reorder um sniff crit l)).after
      = sortEntries (partitionStep um sniff crit l).after := by
  have hnx1 : 1 ≤ nextCrit crit := by simp [nextCrit]
  have hnx4 : nextCrit crit ≤ reorder_by.last := by
    rw [reorder_by_last_eq]; simp [nextCrit]; omega
  rw [partitionStep_after um sniff crit (reorder um sniff crit l),
    reorder_unfold um sniff crit l, if_neg hl, List.filter_append, List.filter_append]
  have hA : (sortEntries (partitionStep um sniff crit l).before).filter
      (fun f => classify um sniff crit f = Route.toAfter) = [] := by
    apply List.filter_eq_nil_iff.mpr
    intro x hx
    simp only [decide_eq_true_eq]
    rw [classify_of_mem_before ((sortEntries_perm _).subset hx)]
    simp
  have hB : (((sortKeys ((partitionStep um sniff crit l).groups.map Prod.fst)).flatMap
      (fun k => reorder um sniff (nextCrit crit)
        (lookupGroup (partitionStep um sniff crit l).groups k)))).filter
      (fun f => classify um sniff crit f = Route.toAfter) = [] := by
    apply List.filter_eq_nil_iff.mpr
    intro x hx
    simp only [decide_eq_true_eq]
    obtain ⟨k, _, hxk⟩ := List.mem_flatMap.mp hx
    rw [classify_of_mem_lookup ((reorder_perm um sniff hnx1 hnx4 _).subset hxk)]
    simp
  have hC : (sortEntries (partitionStep um sniff crit l).after).filter
      (fun f => classify um sniff crit f = Route.toAfter)
      = sortEntries (partitionStep um sniff crit l).after := by
    apply List.filter_eq_self.mpr
    intro x hx
    simp only [decide_eq_true_eq]
    exact classify_of_mem_after ((sortEntries_perm _).subset hx)
  rw [hA, hB, hC, List.nil_append, List.nil_append]

theorem partition_reorder_keys (um : Bool) (sniff : Entry → Option String) {crit : Nat}
    (h1 : 1 ≤ crit) (h4 : crit ≤ reorder_by.last) (l : List Entry) :
    sortKeys ((partitionStep um sniff crit (reorder um sniff crit l)).groups.map Prod.fst)
      = sortKeys ((partitionStep um sniff crit l).groups.map Prod.fst) := by
  apply sortKeys_eq_of_perm
  apply (List.perm_ext_iff_of_nodup (partitionStep_keys_nodup um sniff crit _)
    (partitionStep_keys_nodup um sniff crit l)).mpr
  intro k
  rw [mem_keys_partition, mem_keys_partition]
  constructor
  · rintro ⟨f, hf, hc⟩
    exact ⟨f, (reorder_perm um sniff h1 h4 l).subset hf, hc⟩
  · rintro ⟨f, hf, hc⟩
    exact ⟨f, (reorder_perm um sniff h1 h4 l).mem_iff.mpr hf, hc⟩

theorem partition_reorder_lookup (um : Bool) (sniff : Entry → Option String) {crit : Nat}
    (h1 : 1 ≤ crit) (h3 : crit ≤ 3) (l : List Entry) (hl : ¬l.length ≤ 1) {k : String}
    (hk : k ∈ sortKeys ((partitionStep um sniff crit l).groups.map Prod.fst)) :
    lookupGroup (partitionStep um sniff crit (reorder um sniff crit l)).groups k
      = reorder um sniff (nextCrit crit)
          (lookupGroup (partitionStep um sniff crit l).groups k) := by
  have hnx1 : 1 ≤ nextCrit crit := by simp [nextCrit]
  have hnx4 : nextCrit crit ≤ reorder_by.last := by
    rw [reorder_by_last_eq]; simp [nextCrit]; omega
  rw [partitionStep_lookup um sniff crit (reorder um sniff crit l) k,
    reorder_unfold um sniff crit l, if_neg hl, List.filter_append, List.filter_append]
  have hA : (sortEntries (partitionStep um sniff crit l).before).filter
      (fun f => classify um sniff crit f = Route.toKey k) = [] := by
    apply List.filter_eq_nil_iff.mpr
    intro x hx
    simp only [decide_eq_true_eq]
    rw [classify_of_mem_before ((sortEntries_perm _).subset hx)]
    simp
  have hC : (sortEntries (partitionStep um sniff crit l).after).filter
      (fun f => classify um sniff crit f = Route.toKey k) = [] := by
    apply List.filter_eq_nil_iff.mpr
    intro x hx
    simp only [decide_eq_true_eq]
    rw [classify_of_mem_after ((sortEntries_perm _).subset hx)]
    simp
  have hnd : (sortKeys ((partitionStep um sniff crit l).groups.map Prod.fst)).Nodup :=
    (sortKeys_perm _).nodup_iff.mpr (partitionStep_keys_nodup um sniff crit l)
  have hz : ∀ k' ∈ sortKeys ((partitionStep um sniff crit l).groups.map Prod.fst), k' ≠ k →
      (reorder um sniff (nextCrit crit)
        (lookupGroup (partitionStep um sniff crit l).groups k')).filter
        (fun f => classify um sniff crit f = Route.toKey k) = [] := by
    intro k' _ hne
    apply List.filter_eq_nil_iff.mpr
    intro x hx
    simp only [decide_eq_true_eq]
    rw [classify_of_mem_lookup ((reorder_perm um sniff hnx1 hnx4 _).subset hx)]
    simp [hne]
  have hB : (((sortKeys ((partitionStep um sniff crit l).groups.map Prod.fst)).flatMap
      (fun k' => reorder um sniff (nextCrit crit)
        (lookupGroup (partitionStep um sniff crit l).groups k')))).filter
      (fun f => classify um sniff crit f = Route.toKey k)
      = reorder um sniff (nextCrit crit)
          (lookupGroup (partitionStep um sniff crit l).groups k) := by
    rw [filter_flatMap_eq]
    rw [flatMap_eq_single hnd hk _ hz]
    apply List.filter_eq_self.mpr
    intro x hx
    simp only [decide_eq_true_eq]
    exact classify_of_mem_lookup ((reorder_perm um sniff hnx1 hnx4 _).subset hx)
  rw [hA, hB, hC, List.nil_append, List.append_nil]

/-! ### Idempotence -/

theorem reorder_idem_step (um : Bool) (sniff : Entry → Option String) {crit : Nat}
    (h1 : 1 ≤ crit) (h3 : crit ≤ 3)
    (ihnext : ∀ l', reorder um sniff (nextCrit crit) (reorder um sniff (nextCrit crit) l')
      = reorder um sniff (nextCrit crit) l')
    (l : List Entry) :
    reorder um sniff crit (reorder um sniff crit l) = reorder um sniff crit l := by
  by_cases hl : l.length ≤ 1
  · rw [reorder_unfold um sniff crit l, if_pos hl, reorder_unfold um sniff crit l, if_pos hl]
  · have h4 : crit ≤ reorder_by.last := by rw [reorder_by_last_eq]; omega
    have hylen : ¬(reorder um sniff crit l).length ≤ 1 := by
      rw [(reorder_perm um sniff h1 h4 l).length_eq]
      exact hl
    rw [reorder_unfold um sniff crit (reorder um sniff crit l), if_neg hylen]
    rw [partition_reorder_before um sniff h1 h3 l hl,
      partition_reorder_after um sniff h1 h3 l hl,
      partition_reorder_keys um sniff h1 h4 l,
      sortEntries_idem, sortEntries_idem]
    have hflat : (sortKeys ((partitionStep um sniff crit l).groups.map Prod.fst)).flatMap
        (fun k => reorder um sniff (nextCrit crit)
          (lookupGroup (partitionStep um sniff crit (reorder um sniff crit l)).groups k))
        = (sortKeys ((partitionStep um sniff crit l).groups.map Prod.fst)).flatMap
        (fun k => reorder um sniff (nextCrit crit)
          (lookupGroup (partitionStep um sniff crit l).groups k)) := by
      apply flatMap_congr_mem
      intro k hk
      rw [partition_reorder_lookup um sniff h1 h3 l hl hk, ihnext]
    rw [hflat, reorder_unfold um sniff crit l, if_neg hl]

theorem reorder_idem_aux (um : Bool) (sniff : Entry → Option String) :
    ∀ n crit : Nat, 5 ≤ crit + n →
      ∀ l, reorder um sniff crit (reorder um sniff crit l) = reorder um sniff crit l := by
  intro n
  induction n with
  | zero =>
    intro crit h l
    have h5 : crit = 0 ∨ 5 ≤ crit := Or.inr (by omega)
    by_cases hl : l.length ≤ 1 <;>
      simp [reorder_out_of_range h5, hl]
  | succ m ih =>
    intro crit h l
    rcases Nat.lt_or_ge crit 1 with hc0 | hc1
    · have h5 : crit = 0 ∨ 5 ≤ crit := Or.inl (by omega)
      by_cases hl : l.length ≤ 1 <;>
        simp [reorder_out_of_range h5, hl]
    · rcases Nat.lt_or_ge crit 4 with hc3 | hc4
      · exact reorder_idem_step um sniff hc1 (by omega)
          (fun l' => ih (nextCrit crit) (by simp [nextCrit]; omega) l') l
      · rcases Nat.lt_or_ge crit 5 with hc44 | hc5
        · have hceq : crit = reorder_by.last := by rw [reorder_by_last_eq]; omega
          rw [hceq]
          by_cases hl : l.length ≤ 1
          · rw [reorder_last_eq l, if_pos hl, reorder_last_eq l, if_pos hl]
          · rw [reorder_last_eq l, if_neg hl]
            have hsl : ¬(sortEntries l).length ≤ 1 := by
              rw [(sortEntries_perm l).length_eq]
              exact hl
            rw [reorder_last_eq (sortEntries l), if_neg hsl, sortEntries_idem]
        · have h5 : crit = 0 ∨ 5 ≤ crit := Or.inr hc5
          by_cases hl : l.length ≤ 1 <;>
            simp [reorder_out_of_range h5, hl]

theorem reorder_idem (um : Bool) (sniff : Entry → Option String) (crit : Nat)
    (l : List Entry) :
    reorder um sniff crit (reorder um sniff crit l) = reorder um sniff crit l :=
  reorder_idem_aux um sniff 5 crit (by omega) l

/-! ### Facts about the extension chain -/

theorem takeWhile_length_lt {α : Type} {q : α → Bool} {l : List α}
    (h : ∃ x ∈ l, ¬q x) : (l.takeWhile q).length < l.length := by
  induction l with
  | nil => simp at h
  | cons a as ih =>
    obtain ⟨x, hx, hqx⟩ := h
    by_cases hqa : q a
    · rw [List.takeWhile_cons_of_pos hqa]
      rcases List.mem_cons.mp hx with rfl | hx'
      · exact absurd hqa hqx
      · have := ih ⟨x, hx', hqx⟩
        simpa using this
    · rw [List.takeWhile_cons_of_neg hqa]
      simp

theorem splitextChars_root_lt {p : List Char} (h : (splitextChars p).2 ≠ []) :
    (splitextChars p).1.length < p.length := by
  rw [splitextChars] at h ⊢
  by_cases hany : (((baseNameChars p).dropWhile (fun c => c = '.')).any fun c => c = '.')
  · simp only [if_pos hany]
    have hrest : ((baseNameChars p).dropWhile fun c => c = '.') ≠ [] := by
      intro h0
      rw [h0] at hany
      simp at hany
    have hbase : baseNameChars p ≠ [] := by
      intro h0
      rw [h0] at hrest
      simp at hrest
    have hp : p ≠ [] := by
      intro h0
      apply hbase
      rw [h0]
      rfl
    have hplen : 0 < p.length := List.length_pos.mpr hp
    rw [List.length_take]
    have : p.length - ('.' :: ((((baseNameChars p).dropWhile fun c => c = '.').reverse.takeWhile
        fun c => c ≠ '.').reverse)).length < p.length :=
      Nat.sub_lt hplen (by simp)
    omega
  · rw [if_neg hany] at h
    simp at h

theorem extChainAux_fuel :
    ∀ n : Nat, ∀ p : List Char, p.length ≤ n → ∀ fuel, p.length ≤ fuel →
      extChainAux fuel p = extChainChars p := by
  intro n
  induction n using Nat.strong_induction_on with
  | _ n ih =>
    intro p hpn fuel hpf
    rw [extChainChars]
    match fuel, hpf with
    | 0, hpf =>
      have : p.length = 0 := by omega
      rw [this]
    | g + 1, hpf =>
      match hlen : p.length, hpn with
      | 0, _ =>
        have hp : p = [] := List.length_eq_zero.mp hlen
        subst hp
        rfl
      | m + 1, hpn =>
        rw [extChainAux, extChainAux]
        by_cases hse : (splitextChars p).2 = []
        · rw [if_pos hse, if_pos hse]
        · rw [if_neg hse, if_neg hse]
          congr 1
          have hroot : (splitextChars p).1.length < p.length := splitextChars_root_lt hse
          rw [hlen] at hroot
          have e1 : extChainAux g (splitextChars p).1 = extChainChars (splitextChars p).1 :=
            ih m (by omega) _ (by omega) g (by omega)
          have e2 : extChainAux m (splitextChars p).1 = extChainChars (splitextChars p).1 :=
            ih m (by omega) _ (by omega) m (by omega)
          rw [e1, e2]

theorem extChainChars_no_dot {p : List Char}
    (h : (((baseNameChars p).dropWhile fun c => c = '.').any fun c => c = '.') = false) :
    extChainChars p = [] := by
  rw [extChainChars]
  cases hl : p.length with
  | zero => rfl
  | succ m =>
    rw [extChainAux]
    simp [splitextChars, h]

theorem extChainKey_no_dot {s : String}
    (h : (((baseNameChars s.data).dropWhile fun c => c = '.').any fun c => c = '.') = false) :
    extChainKey s = "" := by
  rw [extChainKey, extChainChars_no_dot h]

/-! ### Structural kinds at the `reorder_by.type` level -/

theorem kind_of_mem_before_type {um : Bool} {sniff : Entry → Option String}
    {l : List Entry} {x : Entry}
    (h : x ∈ (partitionStep um sniff reorder_by.type l).before) : x.kind = FKind.dir := by
  have hc := classify_of_mem_before h
  cases hkind : x.kind
  case dir => rfl
  case reg => rw [classify_type_reg hkind] at hc; simp at hc
  case other => rw [classify_type_other hkind] at hc; simp at hc

theorem kind_of_mem_after_type {um : Bool} {sniff : Entry → Option String}
    {l : List Entry} {x : Entry}
    (h : x ∈ (partitionStep um sniff reorder_by.type l).after) : x.kind = FKind.other := by
  have hc := classify_of_mem_after h
  cases hkind : x.kind
  case other => rfl
  case reg => rw [classify_type_reg hkind] at hc; simp at hc
  case dir => rw [classify_type_dir hkind] at hc; simp at hc

theorem kind_of_mem_lookup_type {um : Bool} {sniff : Entry → Option String}
    {l : List Entry} {k : String} {x : Entry}
    (h : x ∈ lookupGroup (partitionStep um sniff reorder_by.type l).groups k) :
    x.kind = FKind.reg := by
  have hc := classify_of_mem_lookup h
  cases hkind : x.kind
  case reg => rfl
  case dir => rw [classify_type_dir hkind] at hc; simp at hc
  case other => rw [classify_type_other hkind] at hc; simp at hc

/-! ### The fallible content read of lines 101-103 -/

/-- Monadic concatenation used by `reorderFE`: run `g` on each element
left to right, concatenating the emitted lists and propagating the first
exception. -/
def exceptFlatMap {α β : Type} (g : α → Except Unit (List β)) :
    List α → Except Unit (List β)
  | [] => Except.ok []
  | a :: as =>
    match g a with
    | Except.error e => Except.error e
    | Except.ok bs =>
      match exceptFlatMap g as with
      | Except.error e => Except.error e
      | Except.ok rest => Except.ok (bs ++ rest)

/-- `classify` with the content read made explicit: for a regular file at
the `reorder_by.type` criterion with sniffing enabled, lines 101-103 run
`fc = intar.extractfile(f); key = wizard.buffer(fc.read(4096))` with no
exception handler around them.  `sniffE f = Except.error ()` models an
exception escaping that read (unreadable content) and propagates;
`Except.ok r` is the value `wizard.buffer` returned, with `none` turned
into the empty key by lines 105-106.  With sniffing disabled
(`um = false`) the read never happens, so no exception can arise. -/
def classifyE (um : Bool) (sniffE : Entry → Except Unit (Option String)) (crit : Nat)
    (f : Entry) : Except Unit Route :=
  if crit = reorder_by.type then
    if f.kind = FKind.dir then Except.ok Route.toBefore
    else if f.kind = FKind.other then Except.ok Route.toAfter
    else if um then
      match sniffE f with
      | Except.error e => Except.error e
      | Except.ok r => Except.ok (Route.toKey (r.getD ""))
    else Except.ok (Route.toKey "")
  else if crit = reorder_by.ext then Except.ok (Route.toKey (extChainKey f.name))
  else if crit = reorder_by.name then Except.ok (Route.toKey (baseKey f.name))
  else if crit = reorder_by.last then Except.ok Route.toBefore
  else Except.ok Route.dropped

/-- The classification loop of lines 91-132 with the fallible read: an
entry whose content read raises aborts the whole loop. -/
def partitionStepE (um : Bool) (sniffE : Entry → Except Unit (Option String))
    (crit : Nat) : List Entry → Except Unit Partition
  | [] => Except.ok ⟨[], [], []⟩
  | f :: fs =>
    match classifyE um sniffE crit f with
    | Except.error e => Except.error e
    | Except.ok r =>
      match partitionStepE um sniffE crit fs with
      | Except.error e => Except.error e
      | Except.ok p =>
        Except.ok (match r with
          | Route.toBefore => ⟨f :: p.before, p.groups, p.after⟩
          | Route.toAfter => ⟨p.before, p.groups, f :: p.after⟩
          | Route.toKey k => ⟨p.before, addGroup k f p.groups, p.after⟩
          | Route.dropped => p)

/-- `reorderF` with the fallible content read: an exception raised while
sniffing any entry anywhere in the recursion escapes `reorder` — nothing
inside lines 67-143 catches it — and aborts the archive. -/
def reorderFE (um : Bool) (sniffE : Entry → Except Unit (Option String)) :
    Nat → Nat → List Entry → Except Unit (List Entry)
  | 0, _, _ => Except.ok []
  | fuel + 1, crit, inlist =>
    if inlist.length ≤ 1 then Except.ok inlist
    else
      match partitionStepE um sniffE crit inlist with
      | Except.error e => Except.error e
      | Except.ok p =>
        match exceptFlatMap (fun k => reorderFE um sniffE fuel (nextCrit crit)
            (lookupGroup p.groups k)) (sortKeys (p.groups.map Prod.fst)) with
        | Except.error e => Except.error e
        | Except.ok mid =>
          Except.ok (sortEntries p.before ++ mid ++ sortEntries p.after)
termination_by structural fuel _ _ => fuel

/-- `reorder` (lines 67-143) with the fallible content read, at the same
fuel as `reorder`. -/
def reorderE (um : Bool) (sniffE : Entry → Except Unit (Option String)) (crit : Nat)
    (inlist : List Entry) : Except Unit (List Entry) :=
  reorderFE um sniffE 5 crit inlist

theorem exceptFlatMap_ok {α β : Type} {g : α → Except Unit (List β)} {gp : α → List β}
    {l : List α} (h : ∀ a ∈ l, g a = Except.ok (gp a)) :
    exceptFlatMap g l = Except.ok (l.flatMap gp) := by
  induction l with
  | nil => rfl
  | cons a as ih =>
    simp only [exceptFlatMap, h a (List.mem_cons_self a as),
      ih fun x hx => h x (List.mem_cons_of_mem a hx), List.flatMap_cons]

theorem classifyE_ok (um : Bool) (sniff : Entry → Option String) (crit : Nat)
    (f : Entry) :
    classifyE um (fun e => Except.ok (sniff e)) crit f
      = Except.ok (classify um sniff crit f) := by
  unfold classifyE classify
  split_ifs <;> rfl

theorem classifyE_false (sniffE : Entry → Except Unit (Option String))
    (sniff : Entry → Option String) (crit : Nat) (f : Entry) :
    classifyE false sniffE crit f = Except.ok (classify false sniff crit f) := by
  unfold classifyE classify
  split_ifs <;> first | rfl | simp_all

theorem partitionStepE_eq {um : Bool} {sniffE : Entry → Except Unit (Option String)}
    {sniff : Entry → Option String}
    (hcl : ∀ crit f, classifyE um sniffE crit f = Except.ok (classify um sniff crit f))
    (crit : Nat) (l : List Entry) :
    partitionStepE um sniffE crit l = Except.ok (partitionStep um sniff crit l) := by
  induction l with
  | nil => rfl
  | cons f fs ih =>
    cases hc : classify um sniff crit f <;>
      simp [partitionStepE, partitionStep, hcl crit f, ih, hc]

theorem reorderFE_eq {um : Bool} {sniffE : Entry → Except Unit (Option String)}
    {sniff : Entry → Option String}
    (hcl : ∀ crit f, classifyE um sniffE crit f = Except.ok (classify um sniff crit f)) :
    ∀ fuel crit l, reorderFE um sniffE fuel crit l
      = Except.ok (reorderF um sniff fuel crit l) := by
  intro fuel
  induction fuel with
  | zero => intro crit l; rfl
  | succ f ih =>
    intro crit l
    rw [reorderFE, reorderF]
    by_cases hl : l.length ≤ 1
    · rw [if_pos hl, if_pos hl]
    · rw [if_neg hl, if_neg hl]
      have hp := partitionStepE_eq hcl crit l
      have hex : exceptFlatMap (fun k => reorderFE um sniffE f (nextCrit crit)
          (lookupGroup (partitionStep um sniff crit l).groups k))
          (sortKeys ((partitionStep um sniff crit l).groups.map Prod.fst))
          = Except.ok ((sortKeys ((partitionStep um sniff crit l).groups.map
              Prod.fst)).flatMap
            (fun k => reorderF um sniff f (nextCrit crit)
              (lookupGroup (partitionStep um sniff crit l).groups k))) :=
        exceptFlatMap_ok fun k _ => ih (nextCrit crit) _
      simp only [hp, hex]

theorem reorderE_ok (um : Bool) (sniff : Entry → Option String) (crit : Nat)
    (l : List Entry) :
    reorderE um (fun e => Except.ok (sniff e)) crit l
      = Except.ok (reorder um sniff crit l) :=
  reorderFE_eq (fun c f => classifyE_ok um sniff c f) 5 crit l

theorem reorderE_nomagic (sniffE : Entry → Except Unit (Option String))
    (sniff : Entry → Option String) (crit : Nat) (l : List Entry) :
    reorderE false sniffE crit l = Except.ok (reorder false sniff crit l) :=
  reorderFE_eq (fun c f => classifyE_false sniffE sniff c f) 5 crit l

/-! ### In-place replacement of one archive (lines 168-214) -/

/-- The two files involved in an in-place reorder of one archive: the
original archive at path `fn` and the temporary output file created next
to it by `tempfile.NamedTemporaryFile` (line 169); `tmp = none` means no
temp file is on disk.  File contents are abstracted as the entry lists
they hold. -/
structure ArchiveFS where
  orig : List Entry
  tmp : Option (List Entry)
deriving DecidableEq, Repr

/-- The in-place (`not opts.out`) flow of lines 168-214 for one archive.
`run` is the outcome of the protected block of lines 184-197 (open the
output tar over the temp file and run `reorder` into it):
`Except.error ()` when an exception escapes it — the handler of
lines 198-202 then closes and `os.unlink`s the temp file, re-raises, and
the per-file handler of lines 215-220 reports the failure —
`Except.ok out` when the reorder emitted `out` into the temp file.
`closeOk` is whether the unprotected `intar.close(); outtar.close();
tmpf.close()` of lines 209-212 succeeds: `outtar.close()` still writes
the tar end-of-archive blocks, and an exception there propagates to the
per-file handler *without* reaching any `os.unlink`, so the temp file
stays on disk while the original is untouched.  Only when both phases
succeed does `shutil.move(tmpfn, fn)` (line 214) promote the temp file
over the original.  The boolean result is whether this archive counts as
processed (line 222). -/
def processInPlace (run : Except Unit (List Entry)) (closeOk : Bool)
    (fs : ArchiveFS) : ArchiveFS × Bool :=
  match run with
  | Except.error _ => (⟨fs.orig, none⟩, false)
  | Except.ok out =>
    if closeOk then (⟨out, none⟩, true)
    else (⟨fs.orig, some out⟩, false)

/-! ### Concrete sample data used by witnesses and counterexamples -/

/-- The oracle behaviour when libmagic recognises nothing, fails, or the
`magic` module is absent. -/
def sniffNone : Entry → Option String := fun _ => none

/-- An oracle that reports every buffer as a tar archive. -/
def sniffTar : Entry → Option String := fun _ => some "application/x-tar"

/-- An oracle that reports every buffer as a zip archive. -/
def sniffZip : Entry → Option String := fun _ => some "application/zip"

/-- The oracle behaviour for unreadable content: the read of
lines 102-103 raises on every entry. -/
def sniffRaise : Entry → Except Unit (Option String) := fun _ => Except.error ()

/-- A directory whose `TarInfo` object sits at the higher address. -/
def eDirA : Entry := ⟨"a", FKind.dir, 7⟩

/-- A directory whose `TarInfo` object sits at the lower address. -/
def eDirB : Entry := ⟨"b", FKind.dir, 3⟩

/-- A symlink-or-special entry. -/
def eSymS : Entry := ⟨"s", FKind.other, 10⟩

/-- A regular file without extension. -/
def eRegA : Entry := ⟨"f1", FKind.reg, 1⟩

/-- A second regular file without extension. -/
def eRegB : Entry := ⟨"f2", FKind.reg, 2⟩

/-- A regular file named `a.tar`. -/
def eTarOne : Entry := ⟨"a.tar", FKind.reg, 5⟩

/-- Regular file `x/a.tar.bz2` from the spec's clustering scenario. -/
def eTarXA : Entry := ⟨"x/a.tar.bz2", FKind.reg, 1⟩

/-- Regular file `x/b.tar.bz2` from the spec's clustering scenario. -/
def eTarXB : Entry := ⟨"x/b.tar.bz2", FKind.reg, 2⟩

/-- Regular file `x/c.zip` from the spec's clustering scenario. -/
def eZipXC : Entry := ⟨"x/c.zip", FKind.reg, 0⟩

/-! ### Claim theorems -/

/-- C1: for every input entry sequence, every criterion level of the fixed
sequence, and every behaviour of the content-sniff oracle, the multiset of
entries emitted by `reorder` equals the multiset supplied: the emission is
a permutation of the input — same count, same identities, nothing
duplicated or dropped anywhere in the recursion. -/
theorem c1_multiset_preservation (um : Bool) (sniff : Entry → Option String)
    (crit : Nat) (h1 : reorder_by.type ≤ crit) (h4 : crit ≤ reorder_by.last)
    (l : List Entry) : (reorder um sniff crit l).Perm l :=
  reorder_perm um sniff h1 h4 l

/-- Witness for C1 at a concrete mixed archive. -/
theorem c1_witness :
    (reorder false sniffNone reorder_by.type [eRegA, eDirA, eSymS]).Perm
      [eRegA, eDirA, eSymS] :=
  c1_multiset_preservation false sniffNone reorder_by.type (by decide) (by decide) _

/-- C2: at every recursion level with more than one entry, `reorder` emits
the sorted `before` bucket, then every keyed group in ascending
lexicographic order of its key string, each group recursed with the next
criterion in sequence, then the sorted `after` bucket; at the structural
level the `before` bucket holds exactly the directories, the `after`
bucket the symlinks/specials, and the keyed groups the regular files, so
directories always precede all regular-file groups and symlinks/specials
always follow them. -/
theorem c2_emission_order (um : Bool) (sniff : Entry → Option String) (crit : Nat)
    (l : List Entry) (hl : 1 < l.length) :
    (reorder um sniff crit l
      = sortEntries (partitionStep um sniff crit l).before
        ++ (sortKeys ((partitionStep um sniff crit l).groups.map Prod.fst)).flatMap
            (fun k => reorder um sniff (nextCrit crit)
              (lookupGroup (partitionStep um sniff crit l).groups k))
        ++ sortEntries (partitionStep um sniff crit l).after)
    ∧ (sortKeys ((partitionStep um sniff crit l).groups.map Prod.fst)).Sorted keyLe
    ∧ (crit = reorder_by.type →
        (∀ x ∈ (partitionStep um sniff crit l).before, x.kind = FKind.dir)
        ∧ (∀ x ∈ (partitionStep um sniff crit l).after, x.kind = FKind.other)
        ∧ (∀ k : String, ∀ x ∈ lookupGroup (partitionStep um sniff crit l).groups k,
            x.kind = FKind.reg)) := by
  refine ⟨?_, sortKeys_sorted _, ?_⟩
  · rw [reorder_unfold um sniff crit l, if_neg (by omega)]
  · rintro rfl
    exact ⟨fun x hx => kind_of_mem_before_type hx,
      fun x hx => kind_of_mem_after_type hx,
      fun k x hx => kind_of_mem_lookup_type hx⟩

/-- Witness for C2: the emission equation at a concrete three-entry
archive holding a directory, a regular file and a symlink. -/
theorem c2_witness :
    reorder false sniffNone reorder_by.type [eDirA, eRegA, eSymS]
      = sortEntries (partitionStep false sniffNone reorder_by.type
            [eDirA, eRegA, eSymS]).before
        ++ (sortKeys ((partitionStep false sniffNone reorder_by.type
              [eDirA, eRegA, eSymS]).groups.map Prod.fst)).flatMap
            (fun k => reorder false sniffNone (nextCrit reorder_by.type)
              (lookupGroup (partitionStep false sniffNone reorder_by.type
                [eDirA, eRegA, eSymS]).groups k))
        ++ sortEntries (partitionStep false sniffNone reorder_by.type
            [eDirA, eRegA, eSymS]).after :=
  (c2_emission_order false sniffNone reorder_by.type [eDirA, eRegA, eSymS] (by decide)).1

/-- C3 counterexample: the claim says the criterion following
by-structural-kind is a distinct MIME-sniffing by-content-type level with
no structural bucketing.  In the code the recursion step from
`reorder_by.type` reaches `reorder_by.ext`: at that criterion the key of
the regular file `a.tar` is its extension chain `".tar"` under two
oracles that disagree about its MIME type, i.e. the level after
by-structural-kind never sniffs; the sniff happens inside the
by-structural-kind level itself. -/
theorem c3_counterexample :
    nextCrit reorder_by.type = reorder_by.ext
    ∧ classify true sniffTar (nextCrit reorder_by.type) eTarOne = Route.toKey ".tar"
    ∧ classify true sniffZip (nextCrit reorder_by.type) eTarOne = Route.toKey ".tar"
    ∧ sniffTar eTarOne ≠ sniffZip eTarOne
    ∧ classify true sniffTar reorder_by.type eTarOne
        ≠ classify true sniffZip reorder_by.type eTarOne := by
  decide

/-- C3 (amended): the criterion sequence is the fixed four-element list
{by-type (structural bucketing plus MIME key for regular files),
by-extension-chain, by-base-name, terminal}: every group formed at the
by-type level is recursed into with by-extension-chain — whose key is the
stacked extension chain, independent of the oracle — as the next
criterion; MIME sniffing happens only inside the by-type level. -/
theorem c3_criterion_sequence (um : Bool) (sniff : Entry → Option String) (f : Entry) :
    nextCrit reorder_by.type = reorder_by.ext
    ∧ nextCrit reorder_by.ext = reorder_by.name
    ∧ nextCrit reorder_by.name = reorder_by.last
    ∧ classify um sniff reorder_by.ext f = Route.toKey (extChainKey f.name)
    ∧ (f.kind = FKind.reg →
        classify um sniff reorder_by.type f
          = Route.toKey ((if um then sniff f else none).getD "")) :=
  ⟨rfl, rfl, rfl, classify_ext um sniff f, fun h => classify_type_reg h⟩

/-- Witness for C3's amended theorem at the regular file `a.tar`. -/
theorem c3_witness :
    classify true sniffTar reorder_by.type eTarOne
      = Route.toKey ((if true then sniffTar eTarOne else none).getD "") :=
  (c3_criterion_sequence true sniffTar eTarOne).2.2.2.2 (by decide)

/-- C4 (evaluation at the failing input): `before.sort()` orders the two
directories by the object-identity field (Python 2's default comparison
for `TarInfo` objects, which define no ordering), not by path: with the
directory named `b` at the lower address the archive `[a, b]` is emitted
as `b` before `a`, although `a` precedes `b` in the path-lexicographic
order the claim requires. -/
theorem c4_addr_sort_not_path_sort :
    reorder false sniffNone reorder_by.type [eDirA, eDirB] = [eDirB, eDirA]
    ∧ charListLe eDirA.name.data eDirB.name.data = true
    ∧ eDirA.name ≠ eDirB.name
    ∧ eDirB.addr < eDirA.addr := by
  decide

/-- C5: the by-extension-chain grouping key is the concatenation of the
`.extension` suffixes stripped from the rightmost end of the final path
segment, in strip order: `archive.tar.bz2` yields `".bz2.tar"`; a name
whose final segment has no dot after its leading dots yields the empty
key; and the spec's clustering scenario holds: `a.tar.bz2`, `b.tar.bz2`,
`c.zip` reordered by extension-chain place the two `.tar.bz2` files
adjacent before `c.zip`, groups in ascending key order. -/
theorem c5_extension_chain :
    extChainKey "archive.tar.bz2" = ".bz2.tar"
    ∧ classify false sniffNone reorder_by.ext eTarXA = Route.toKey ".bz2.tar"
    ∧ (∀ s : String,
        ((((baseNameChars s.data).dropWhile fun c => c = '.').any fun c => c = '.') = false) →
        extChainKey s = "")
    ∧ reorder false sniffNone reorder_by.ext [eZipXC, eTarXA, eTarXB]
        = [eTarXA, eTarXB, eZipXC] :=
  ⟨by decide, by decide, fun s h => extChainKey_no_dot h, by decide⟩

/-- Witness for C5's empty-key clause at a name with no extension. -/
theorem c5_witness : extChainKey "src/README" = "" :=
  c5_extension_chain.2.2.1 "src/README" (by decide)

/-- C6: reordering an already-reordered entry sequence with the same
content-sniff oracle yields an identical emission order — `reorder` is a
fixed point on its own output, for every input, oracle and magic flag. -/
theorem c6_idempotent (um : Bool) (sniff : Entry → Option String) (l : List Entry) :
    reorder um sniff reorder_by.type (reorder um sniff reorder_by.type l)
      = reorder um sniff reorder_by.type l :=
  reorder_idem um sniff reorder_by.type l

/-- C7 counterexample: the next-criterion step of line 142 is the plain
increment `crit + 1` and does not clamp to the terminal criterion: from
terminal it yields criterion 5, which is not terminal, and at which a
multi-entry list would be emitted empty instead of passed through, unlike
at terminal itself. -/
theorem c7_counterexample :
    nextCrit reorder_by.last ≠ reorder_by.last
    ∧ reorder false sniffNone (nextCrit reorder_by.last) [eRegA, eRegB] = []
    ∧ reorder false sniffNone reorder_by.last [eRegA, eRegB] = [eRegA, eRegB] := by
  decide

/-- C7 (amended): `reorder` terminates on every input (it is a total
function of a recursion whose depth is bounded by the criterion
sequence): the terminal criterion assigns every entry to the `before`
bucket and never produces groups, so at terminal the emission is just the
sorted input and no recursive call is made; and since groups only form at
criteria strictly below terminal, the criterion passed to any recursive
call never exceeds terminal — not because the next-criterion step clamps
(it is an unconditional `crit + 1`) but because terminal-level partitions
have no groups to recurse into. -/
theorem c7_termination (um : Bool) (sniff : Entry → Option String) :
    (∀ f : Entry, classify um sniff reorder_by.last f = Route.toBefore)
    ∧ (∀ l : List Entry, (partitionStep um sniff reorder_by.last l).groups = [])
    ∧ (∀ (crit : Nat) (l : List Entry),
        (partitionStep um sniff crit l).groups ≠ [] → nextCrit crit ≤ reorder_by.last)
    ∧ (∀ l : List Entry, reorder um sniff reorder_by.last l
        = if l.length ≤ 1 then l else sortEntries l) := by
  refine ⟨classify_last um sniff, ?_, ?_, fun l => reorder_last_eq l⟩
  · intro l
    rw [partitionStep_all_before (fun f => classify_last um sniff f) l]
  · intro crit l h
    have hcrit := partitionStep_groups_crit h
    rw [reorder_by_type_eq, reorder_by_ext_eq, reorder_by_name_eq] at hcrit
    rw [reorder_by_last_eq]
    simp only [nextCrit]
    omega

/-- Witness for C7's recursion-criterion bound at a concrete partition
with a nonempty group list. -/
theorem c7_witness : nextCrit reorder_by.ext ≤ reorder_by.last :=
  (c7_termination false sniffNone).2.2.1 reorder_by.ext [eRegA, eRegB] (by decide)

/-- C8 counterexample: the claim lists unreadable content among the
content-sniff failures that never abort and degrade the entry to the
empty-string key.  With sniffing enabled, an exception from the content
read of lines 102-103 — which has no handler anywhere inside `reorder` —
aborts the classification of the entry and the reorder of the whole
archive instead of producing the empty-key route; the same two-entry
archive completes (emitting both entries) when its content is readable
and merely unrecognised. -/
theorem c8_counterexample :
    reorderE true sniffRaise reorder_by.type [eRegA, eRegB] = Except.error ()
    ∧ classifyE true sniffRaise reorder_by.type eRegA = Except.error ()
    ∧ classifyE true sniffRaise reorder_by.type eRegA ≠ Except.ok (Route.toKey "")
    ∧ reorderE true (fun e => Except.ok (sniffNone e)) reorder_by.type [eRegA, eRegB]
        = Except.ok [eRegA, eRegB] :=
  ⟨by rfl, by rfl, fun h => Except.noConfusion h, by rfl⟩

/-- C8 (amended): a content-sniff failure reported by the oracle — the
oracle returning unknown, sniffing disabled, or the magic module absent —
never aborts the reordering: the affected regular entry is classified
with the empty-string key and the full reorder completes, emitting every
entry.  Whenever every content read succeeds, the fallible-read reorder
completes with the pure result; with sniffing disabled it completes even
if reads would raise, because the read never happens.  Unreadable
content with sniffing enabled, however, raises out of lines 102-103 and
aborts the archive's reorder (see the counterexample). -/
theorem c8_sniff_failure_degrades (um : Bool) (sniff : Entry → Option String)
    (l : List Entry) :
    (∀ f : Entry, f.kind = FKind.reg → sniff f = none →
        classify true sniff reorder_by.type f = Route.toKey "")
    ∧ (∀ f : Entry, f.kind = FKind.reg →
        classify false sniff reorder_by.type f = Route.toKey "")
    ∧ reorderE um (fun e => Except.ok (sniff e)) reorder_by.type l
        = Except.ok (reorder um sniff reorder_by.type l)
    ∧ (∀ sniffE : Entry → Except Unit (Option String),
        reorderE false sniffE reorder_by.type l
          = Except.ok (reorder false sniff reorder_by.type l))
    ∧ (reorder um sniff reorder_by.type l).Perm l := by
  refine ⟨?_, ?_, reorderE_ok um sniff reorder_by.type l,
    fun sniffE => reorderE_nomagic sniffE sniff reorder_by.type l,
    reorder_perm um sniff (by decide) (by decide) l⟩
  · intro f hreg hnone
    rw [classify_type_reg hreg, hnone]
    rfl
  · intro f hreg
    rw [classify_type_reg hreg]
    rfl

/-- Witness for C8 at a regular file with an unrecognising oracle. -/
theorem c8_witness :
    classify true sniffNone reorder_by.type eRegA = Route.toKey "" :=
  (c8_sniff_failure_degrades true sniffNone []).1 eRegA (by decide) rfl

/-- C9 counterexample: the claim says any error while writing the output
deletes the temporary file.  When the reorder into the temp file
succeeds but the final unprotected `outtar.close()` flush of line 210
fails, the archive is reported as failed and the original is untouched,
yet the temp file is still on disk — `os.unlink` (line 200) only runs
for exceptions raised inside the inner `try` of lines 184-197. -/
theorem c9_counterexample :
    (processInPlace (Except.ok [eRegA]) false ⟨[eRegA, eRegB], none⟩).2 = false
    ∧ (processInPlace (Except.ok [eRegA]) false ⟨[eRegA, eRegB], none⟩).1.tmp ≠ none
    ∧ (processInPlace (Except.ok [eRegA]) false ⟨[eRegA, eRegB], none⟩).1.orig
        = [eRegA, eRegB] := by
  decide

/-- C9 (amended): for an in-place reorder, an error during the reorder or
while writing into the temp file deletes the temp file and leaves the
original untouched; the temp file is promoted over the original only
after the reorder, the write and the final close all succeed; any failed
run leaves the original untouched — but a failure of the final
close/flush, after a successful reorder, leaves the temp file behind on
disk (the original still untouched). -/
theorem c9_atomic_replace (run : Except Unit (List Entry)) (closeOk : Bool)
    (fs : ArchiveFS) :
    (run = Except.error () →
      processInPlace run closeOk fs = (⟨fs.orig, none⟩, false))
    ∧ ((processInPlace run closeOk fs).2 = false →
      (processInPlace run closeOk fs).1.orig = fs.orig)
    ∧ (∀ out : List Entry, run = Except.ok out → closeOk = true →
      processInPlace run closeOk fs = (⟨out, none⟩, true))
    ∧ (∀ out : List Entry, run = Except.ok out → closeOk = false →
      processInPlace run closeOk fs = (⟨fs.orig, some out⟩, false)) := by
  rcases run with e | out
  · cases e
    refine ⟨fun _ => rfl, fun _ => rfl, ?_, ?_⟩
    · intro out h
      cases h
    · intro out h
      cases h
  · cases closeOk
    · refine ⟨?_, fun _ => rfl, ?_, ?_⟩
      · intro h
        cases h
      · intro out' h hc
        cases hc
      · intro out' h _
        cases h
        rfl
    · refine ⟨?_, ?_, ?_, ?_⟩
      · intro h
        cases h
      · intro h
        simp [processInPlace] at h
      · intro out' h _
        cases h
        rfl
      · intro out' _ hc
        cases hc

/-- Witness for C9's amended theorem: a reorder failure deletes the temp
file and leaves the original archive untouched. -/
theorem c9_witness :
    processInPlace (Except.error ()) true ⟨[eRegA], none⟩ = (⟨[eRegA], none⟩, false) :=
  (c9_atomic_replace (Except.error ()) true ⟨[eRegA], none⟩).1 rfl

/-- C10: an entry whose final path segment begins with a dot and contains
no other dot (a hidden file such as `.bashrc`) gets the empty-string
extension-chain key, the same key as a name with no extension at all, so
both fall into the same group at the by-extension-chain level. -/
theorem c10_hidden_file_key (s : String)
    (hhead : (baseNameChars s.data).head? = some '.')
    (htail : ∀ c ∈ (baseNameChars s.data).tail, c ≠ '.') :
    extChainKey s = "" ∧ extChainKey s = extChainKey "README" := by
  have hbase : baseNameChars s.data = '.' :: (baseNameChars s.data).tail := by
    cases hb : baseNameChars s.data with
    | nil =>
      rw [hb] at hhead
      simp at hhead
    | cons c cs =>
      rw [hb] at hhead
      simp only [List.head?_cons, Option.some.injEq] at hhead
      simp [hhead]
  have hkey : extChainKey s = "" := by
    apply extChainKey_no_dot
    rw [hbase, List.dropWhile_cons]
    rw [if_pos (by simp)]
    apply List.any_eq_false.mpr
    intro c hc
    have hmem : c ∈ (baseNameChars s.data).tail :=
      (List.dropWhile_sublist _).subset hc
    simpa using htail c hmem
  exact ⟨hkey, by rw [hkey]; decide⟩

/-- Witness for C10 at the hidden file `.bashrc`. -/
theorem c10_witness : extChainKey ".bashrc" = "" :=
  (c10_hidden_file_key ".bashrc" (by decide) (by decide)).1

end TarReorder
